import Mathlib

/-!
# Verification of `arc-local-store-preferences`

A shallow embedding of the repository's two storage elements and their shared
value codec, with theorems checking the natural-language specification.

Embedded source files:
* `src/arc-local-store-preferences.js` (legacy Polymer preferences element)
* `src/src/ArcLocalStorePreferences.d.ts` (current Lit preferences element and
  the exported module-level `wrap` / `unwrap` codec)
* `src/arc-local-store-workspace.js` (legacy Polymer workspace element)
* `src/unnamed/part_000` (current Lit workspace element)

The host environment's `JSON.stringify` / `JSON.parse` pair (which the codec
delegates to) is modelled by an executable canonical serializer and a
recursive-descent parser over a `JSValue` type; JS numbers are modelled as
integers (float formatting is out of scope for every claim).
-/

namespace ArcStore

/-! ## JSON value model

`JSValue` models a JSON-serializable JS value.  Arrays and objects are modelled
by the mutual types `JSArr` / `JSObj` (an object is an insertion-ordered
association list, matching JS object member enumeration order). -/

mutual

inductive JSValue : Type where
  | null : JSValue
  | bool : Bool → JSValue
  | num : Int → JSValue
  | str : String → JSValue
  | arr : JSArr → JSValue
  | obj : JSObj → JSValue

inductive JSArr : Type where
  | nil : JSArr
  | cons : JSValue → JSArr → JSArr

inductive JSObj : Type where
  | nil : JSObj
  | cons : String → JSValue → JSObj → JSObj

end

deriving instance DecidableEq for JSValue, JSArr, JSObj

/-- A JS runtime value as seen by the codec: either `undefined` or a
JSON-serializable value (`JSValue.null` models JS `null`). -/
inductive JSVal : Type where
  | jsUndefined : JSVal
  | json : JSValue → JSVal
  deriving DecidableEq

/-! ## The host `JSON.stringify`, modelled

Canonical output: no whitespace, members/elements in order, strings quoted with
the standard JSON escapes (`\" \\ \b \f \n \r \t`, and `\u00XX` for the
remaining control characters), numbers in decimal. -/

/-- Lowercase hex digit for `d < 16`. -/
def hexCh (d : Nat) : Char :=
  match d with
  | 0 => '0' | 1 => '1' | 2 => '2' | 3 => '3' | 4 => '4'
  | 5 => '5' | 6 => '6' | 7 => '7' | 8 => '8' | 9 => '9'
  | 10 => 'a' | 11 => 'b' | 12 => 'c' | 13 => 'd' | 14 => 'e' | 15 => 'f'
  | _ => '0'

/-- Decimal digit character for `d < 10`. -/
def digitCh (d : Nat) : Char :=
  match d with
  | 0 => '0' | 1 => '1' | 2 => '2' | 3 => '3' | 4 => '4'
  | 5 => '5' | 6 => '6' | 7 => '7' | 8 => '8' | 9 => '9'
  | _ => '0'

/-- Escaping of one string character, as `JSON.stringify` does it. -/
def escChar (c : Char) : List Char :=
  if c = '"' then ['\\', '"']
  else if c = '\\' then ['\\', '\\']
  else if c = '\n' then ['\\', 'n']
  else if c = '\r' then ['\\', 'r']
  else if c = '\t' then ['\\', 't']
  else if c.toNat = 8 then ['\\', 'b']
  else if c.toNat = 12 then ['\\', 'f']
  else if c.toNat < 32 then
    ['\\', 'u', '0', '0', hexCh (c.toNat / 16), hexCh (c.toNat % 16)]
  else [c]

def escape : List Char → List Char
  | [] => []
  | c :: r => escChar c ++ escape r

/-- The serialized form of a JSON string (quotes plus escaped content). -/
def serStr (s : String) : List Char :=
  '"' :: escape s.data ++ ['"']

/-- Big-endian decimal digits of `n` (fuel-based; fuel `n + 1` suffices). -/
def natCharsAux : Nat → Nat → List Char
  | 0, _ => []
  | f + 1, n =>
    if n < 10 then [digitCh n]
    else natCharsAux f (n / 10) ++ [digitCh (n % 10)]

def natChars (n : Nat) : List Char := natCharsAux (n + 1) n

/-- Decimal form of a JSON (integer) number. -/
def intChars (n : Int) : List Char :=
  if n < 0 then '-' :: natChars n.natAbs else natChars n.natAbs

mutual

/-- Characters of `JSON.stringify v`. -/
def serV : JSValue → List Char
  | .null => "null".data
  | .bool true => "true".data
  | .bool false => "false".data
  | .num n => intChars n
  | .str s => serStr s
  | .arr l => '[' :: serItems l ++ [']']
  | .obj ms => '{' :: serMembers ms ++ ['}']

/-- Elements of an array body (comma-separated). -/
def serItems : JSArr → List Char
  | .nil => []
  | .cons v tl => serV v ++ serItemsTail tl

def serItemsTail : JSArr → List Char
  | .nil => []
  | .cons v tl => ',' :: serV v ++ serItemsTail tl

/-- Members of an object body (comma-separated `"key":value` pairs). -/
def serMembers : JSObj → List Char
  | .nil => []
  | .cons k v tl => serStr k ++ ':' :: serV v ++ serMembersTail tl

def serMembersTail : JSObj → List Char
  | .nil => []
  | .cons k v tl => ',' :: serStr k ++ ':' :: serV v ++ serMembersTail tl

end

/-- The host `JSON.stringify`, modelled (canonical form, no whitespace). -/
def jsonStringify (v : JSValue) : String := String.mk (serV v)

/-! ## The host `JSON.parse`, modelled

A recursive-descent parser over the character list.  It accepts (at least) the
canonical output of the serializer above; any input it does not recognise
yields `none`, which models `JSON.parse` throwing a `SyntaxError`. -/

def isDigitCh (c : Char) : Bool := 48 ≤ c.toNat && c.toNat ≤ 57

def isHexCh (c : Char) : Bool :=
  (48 ≤ c.toNat && c.toNat ≤ 57) || (97 ≤ c.toNat && c.toNat ≤ 102)

/-- Numeric value of a (lowercase) hex digit character. -/
def hexVal (c : Char) : Nat :=
  if c.toNat ≤ 57 then c.toNat - 48 else c.toNat - 87

/-- Numeric value of a decimal digit character. -/
def digitVal (c : Char) : Nat := c.toNat - 48

/-- Value of a big-endian decimal digit string. -/
def charsToNat (ds : List Char) : Nat :=
  ds.foldl (fun a c => 10 * a + digitVal c) 0

/-- The character denoted by a single-character JSON escape `\e`. -/
def escDecode (e : Char) : Option Char :=
  if e = '"' then some '"'
  else if e = '\\' then some '\\'
  else if e = '/' then some '/'
  else if e = 'n' then some '\n'
  else if e = 'r' then some '\r'
  else if e = 't' then some '\t'
  else if e = 'b' then some (Char.ofNat 8)
  else if e = 'f' then some (Char.ofNat 12)
  else none

mutual

/-- Parse the body of a JSON string up to (and consuming) the closing quote,
returning the decoded characters and the remaining input.  `fuel` bounds the
number of steps (the input length plus one suffices). -/
def parseStrAux : Nat → List Char → Option (List Char × List Char)
  | 0, _ => none
  | _ + 1, [] => none
  | f + 1, c :: r =>
    if c = '"' then some ([], r)
    else if c = '\\' then parseEsc f r
    else (parseStrAux f r).map fun p => (c :: p.1, p.2)

/-- Continue a string body right after a backslash. -/
def parseEsc : Nat → List Char → Option (List Char × List Char)
  | 0, _ => none
  | _ + 1, [] => none
  | f + 1, e :: r2 =>
    if e = 'u' then parseHex4 f r2
    else
      match escDecode e with
      | some d => (parseStrAux f r2).map fun p => (d :: p.1, p.2)
      | none => none

/-- Continue a string body right after `\u`: four hex digits. -/
def parseHex4 : Nat → List Char → Option (List Char × List Char)
  | 0, _ => none
  | f + 1, h1 :: h2 :: h3 :: h4 :: r3 =>
    if isHexCh h1 && isHexCh h2 && isHexCh h3 && isHexCh h4 then
      (parseStrAux f r3).map fun p =>
        (Char.ofNat (((hexVal h1 * 16 + hexVal h2) * 16 + hexVal h3) * 16
          + hexVal h4) :: p.1, p.2)
    else none
  | _ + 1, [] => none
  | _ + 1, [_] => none
  | _ + 1, [_, _] => none
  | _ + 1, [_, _, _] => none

end

/-- Consume an expected literal character sequence.  (`expectChars` needs no
fuel: it is structural on its first argument.) -/
def expectChars : List Char → List Char → Option (List Char)
  | [], r => some r
  | _ :: _, [] => none
  | e :: es, c :: cs => if c = e then expectChars es cs else none

mutual

/-- Parse one JSON value; returns it with the unconsumed rest of the input.
`fuel` bounds the number of steps (the input length plus one suffices). -/
def parseV : Nat → List Char → Option (JSValue × List Char)
  | 0, _ => none
  | _ + 1, [] => none
  | f + 1, c :: r =>
    if c = 'n' then (expectChars ['u', 'l', 'l'] r).map fun r' => (.null, r')
    else if c = 't' then (expectChars ['r', 'u', 'e'] r).map fun r' => (.bool true, r')
    else if c = 'f' then (expectChars ['a', 'l', 's', 'e'] r).map fun r' => (.bool false, r')
    else if c = '"' then (parseStrAux f r).map fun p => (.str (String.mk p.1), p.2)
    else if c = '[' then parseArr0 f r
    else if c = '{' then parseObj0 f r
    else if c = '-' then parseNeg f r
    else if isDigitCh c then
      some (.num (charsToNat ((c :: r).takeWhile isDigitCh)),
        (c :: r).dropWhile isDigitCh)
    else none

/-- Continue right after `[`: empty array or first element plus
continuation. -/
def parseArr0 : Nat → List Char → Option (JSValue × List Char)
  | 0, _ => none
  | _ + 1, [] => none
  | f + 1, d :: r2 =>
    if d = ']' then some (.arr .nil, r2)
    else
      (parseV f (d :: r2)).bind fun p =>
        (parseItems f p.2).map fun q => (.arr (.cons p.1 q.1), q.2)

/-- Continue an array body: either `]` or `,` followed by an element and a
further continuation. -/
def parseItems : Nat → List Char → Option (JSArr × List Char)
  | 0, _ => none
  | _ + 1, [] => none
  | f + 1, c :: r =>
    if c = ']' then some (.nil, r)
    else if c = ',' then
      (parseV f r).bind fun p =>
        (parseItems f p.2).map fun q => (.cons p.1 q.1, q.2)
    else none

/-- Continue right after `{`: empty object or first member plus
continuation. -/
def parseObj0 : Nat → List Char → Option (JSValue × List Char)
  | 0, _ => none
  | _ + 1, [] => none
  | f + 1, d :: r2 =>
    if d = '}' then some (.obj .nil, r2)
    else if d = '"' then
      (parseStrAux f r2).bind fun pk => parseFirstMemberCont f pk.1 pk.2
    else none

/-- After the first member's key: expect `:`, a value, and the member
continuation; assembles the whole object value. -/
def parseFirstMemberCont : Nat → List Char → List Char → Option (JSValue × List Char)
  | 0, _, _ => none
  | _ + 1, _, [] => none
  | f + 1, k, e :: r3 =>
    if e = ':' then
      (parseV f r3).bind fun p =>
        (parseMembers f p.2).map fun q =>
          (.obj (.cons (String.mk k) p.1 q.1), q.2)
    else none

/-- Continue an object body: either `}` or `,` followed by a member and a
further continuation. -/
def parseMembers : Nat → List Char → Option (JSObj × List Char)
  | 0, _ => none
  | _ + 1, [] => none
  | f + 1, c :: r =>
    if c = '}' then some (.nil, r)
    else if c = ',' then parseNextMember f r
    else none

/-- A member after `,`: expect a quoted key. -/
def parseNextMember : Nat → List Char → Option (JSObj × List Char)
  | 0, _ => none
  | _ + 1, [] => none
  | f + 1, d :: r2 =>
    if d = '"' then
      (parseStrAux f r2).bind fun pk => parseMemberCont f pk.1 pk.2
    else none

/-- After a later member's key: expect `:`, a value, and the member
continuation. -/
def parseMemberCont : Nat → List Char → List Char → Option (JSObj × List Char)
  | 0, _, _ => none
  | _ + 1, _, [] => none
  | f + 1, k, e :: r3 =>
    if e = ':' then
      (parseV f r3).bind fun p =>
        (parseMembers f p.2).map fun q => (.cons (String.mk k) p.1 q.1, q.2)
    else none

/-- A number after `-`: one or more digits. -/
def parseNeg : Nat → List Char → Option (JSValue × List Char)
  | 0, _ => none
  | _ + 1, [] => none
  | _ + 1, d :: r2 =>
    if isDigitCh d then
      some (.num (-(charsToNat ((d :: r2).takeWhile isDigitCh) : Int)),
        (d :: r2).dropWhile isDigitCh)
    else none

end

/-- The host `JSON.parse`, modelled: parse the whole input (no trailing
garbage); `none` models a thrown `SyntaxError`. -/
def jsonParse (s : String) : Option JSValue :=
  match parseV (s.length + 1) s.data with
  | some (v, []) => some v
  | _ => none

/-! ## The codec (`wrap` / `unwrap`)

From `src/src/ArcLocalStorePreferences.d.ts` lines 149–174 (module-level
`wrap` / `unwrap` of the current implementation); the legacy elements'
`_wrap` / `_unwrap` methods are character-for-character the same logic. -/

/-- JS truthiness on the values in our model (`undefined`, `null`, `false`,
`0` and `""` are falsy; every array or object is truthy). -/
def jsFalsy : JSVal → Bool
  | .jsUndefined => true
  | .json .null => true
  | .json (.bool b) => !b
  | .json (.num n) => n == 0
  | .json (.str s) => s == ""
  | .json (.arr _) => false
  | .json (.obj _) => false

/-- Codec `wrap(value)`: `undefined` and `null` are returned unchanged; any other
value is returned as the JSON text of `{ value }`. -/
def wrap : JSVal → JSVal
  | .jsUndefined => .jsUndefined
  | .json .null => .json .null
  | .json v => .json (.str (jsonStringify (.obj (.cons "value" v .nil))))

/-- JS property lookup on an object member list: the *last* member with the
given key wins (later members shadow earlier ones). -/
def objLookup : JSObj → String → Option JSValue
  | .nil, _ => none
  | .cons k v tl, key =>
    match objLookup tl key with
    | some w => some w
    | none => if k = key then some v else none

/-- The JS expression `parsed.value` as evaluated inside `unwrap`'s
`try`-block: property access on an object; on a non-object primitive it yields
`undefined`; on `null` it throws a `TypeError`, which `unwrap`'s `catch`
swallows into `undefined` — so every non-object case lands on `undefined`. -/
def dotValue : JSValue → JSVal
  | .obj ms =>
    match objLookup ms "value" with
    | some v => .json v
    | none => .jsUndefined
  | _ => .jsUndefined

/-- Codec `unwrap(value)`: falsy or non-string input is returned unchanged;
otherwise the input is `JSON.parse`d and its `.value` projected, with any
error swallowed into `undefined`. -/
def unwrap (v : JSVal) : JSVal :=
  if jsFalsy v then v
  else
    match v with
    | .json (.str s) =>
      match jsonParse s with
      | some j => dotValue j
      | none => .jsUndefined
    | _ => v

/-! ## The underlying key-value store (`window.localStorage`), modelled

An ordered list of `(key, rawValue)` entries (`key(i)` is the key at ordinal
position `i`); real `localStorage` keys are unique, so theorems that need it
take a `Nodup` hypothesis on the keys.  `quota` models the storage quota as a
maximum entry count: `setItem` throws (`Except.error`) when exceeded. -/

structure LStorage : Type where
  entries : List (String × String)
  quota : Option Nat
  deriving DecidableEq

/-- First entry value for a key (entry keys are unique in real storage). -/
def lookupEntry : List (String × String) → String → Option String
  | [], _ => none
  | p :: tl, key => if p.1 = key then some p.2 else lookupEntry tl key

/-- Model of `localStorage.getItem(key)`: the stored string, or `null` when absent. -/
def getItem (σ : LStorage) (key : String) : JSVal :=
  match lookupEntry σ.entries key with
  | some s => .json (.str s)
  | none => .json .null

/-- The entry list after a successful `setItem`: overwrite in place when the
key exists, else append at the end. -/
def setItemRaw (st : List (String × String)) (k v : String) :
    List (String × String) :=
  if (st.map Prod.fst).contains k then
    st.map fun p => if p.1 = k then (k, v) else p
  else st ++ [(k, v)]

/-- Model of `localStorage.setItem(key, value)`: may throw (quota exceeded), modelled
as `Except.error` carrying the thrown error. -/
def setItem (σ : LStorage) (k v : String) : Except String LStorage :=
  let st := setItemRaw σ.entries k v
  match σ.quota with
  | some q => if q < st.length then .error "QuotaExceededError" else .ok ⟨st, σ.quota⟩
  | none => .ok ⟨st, σ.quota⟩

/-- Model of `localStorage.removeItem(key)`. -/
def removeItem (st : List (String × String)) (key : String) :
    List (String × String) :=
  st.filter fun p => !(p.1 == key)

/-- JS string coercion (`String(x)`) as applied by `localStorage.setItem` to
its value argument.  On this code path the value is `_wrap`'s result — a
string, `null` or `undefined`; the remaining cases follow JS `ToString` on
primitives and are never reached here (array/object coercion is stubbed with
its JS default for objects). -/
def toStorageString : JSVal → String
  | .jsUndefined => "undefined"
  | .json .null => "null"
  | .json (.str s) => s
  | .json (.bool true) => "true"
  | .json (.bool false) => "false"
  | .json (.num n) => String.mk (intChars n)
  | .json (.arr _) => ""
  | .json (.obj _) => "[object Object]"

/-! ## Preferences Store (`ArcLocalStorePreferences`)

From `src/arc-local-store-preferences.js` (legacy) and the current
implementation embedded in `src/src/ArcLocalStorePreferences.d.ts`; both have
the same storage logic.  `dataPrefix : Option String` models the JS property
(`none` = `undefined`/`null`); the element default is `some "_arc_"`. -/

/-- Should `load` skip this logical key? (`scope && scope.indexOf(k) === -1`;
`none` models an absent `scope` argument). -/
def scopeSkip : Option (List String) → String → Bool
  | none, _ => false
  | some sc, k => !(sc.contains k)

/-- Method `load(scope)` (lines 137–153 of the legacy element): scan all keys in
ordinal order; keys starting with `dataPrefix + "."` are stripped, filtered by
`scope`, decoded with the codec and inserted into the result object, which is
modelled as an insertion-ordered association list.  Total: `load` never
fails. -/
def prefLoad (dataPrefix : Option String) (σ : LStorage)
    (scope : Option (List String)) : List (String × JSVal) :=
  let pfx := (dataPrefix.getD "") ++ "."
  let pLen := pfx.length
  σ.entries.foldl
    (fun result p =>
      let key := p.1
      if pfx.data.isPrefixOf key.data then
        let settingKey := String.mk (key.data.drop pLen)
        if scopeSkip scope settingKey then result
        else result ++ [(settingKey, unwrap (getItem σ key))]
      else result)
    []

/-- Method `store(key, value)` (lines 160–170 of the legacy element): one
`setItem` under `dataPrefix + "." + key`; on a thrown write error the promise
rejects with it and nothing else happens; on success `_informChanged(key,
value)` dispatches exactly one `settings-changed` notification carrying the
original value.  Result: (completion, storage after, notifications). -/
def prefStore (dataPrefix : Option String) (σ : LStorage) (key : String)
    (value : JSVal) : Except String Unit × LStorage × List (String × JSVal) :=
  let pfx := dataPrefix.getD ""
  let sKey := pfx ++ "." ++ key
  match setItem σ sKey (toStorageString (wrap value)) with
  | .error e => (.error e, σ, [])
  | .ok σ' => (.ok (), σ', [(key, value)])

/-- The downward removal loop shared by both elements' `clear()`:
`for (let i = length - 1; i >= 0; i--) if (key(i).indexOf(prefix) === 0)
removeItem(key(i))`.  `clearFrom pfx i st` runs the loop for indices
`i - 1, i - 2, …, 0` on current state `st`. -/
def clearFrom (pfx : String) : Nat → List (String × String) → List (String × String)
  | 0, st => st
  | i + 1, st =>
    match st.get? i with
    | some p =>
      clearFrom pfx i (if pfx.data.isPrefixOf p.1.data then removeItem st p.1 else st)
    | none => clearFrom pfx i st

/-- Shared `clear()` body with an already-computed prefix string: removes every key whose
name starts with the *bare* prefix. -/
def clearCore (pfx : String) (σ : LStorage) : LStorage :=
  ⟨clearFrom pfx σ.entries.length σ.entries, σ.quota⟩

/-- Preferences `clear()` (lines 175–183): bare-prefix match with
`this.dataPrefix || ''`. -/
def prefClear (dataPrefix : Option String) (σ : LStorage) : LStorage :=
  clearCore (dataPrefix.getD "") σ

/-- A `settings-changed` request event (`e.detail.name` / `e.detail.value`;
`result` is the `e.detail.result` slot the handler may populate). -/
structure PrefChangeEvent : Type where
  cancelable : Bool
  defaultPrevented : Bool
  name : Option String
  value : JSVal
  result : Option (Except String Unit)

/-- JS falsiness of `e.detail.name` (absent or empty string). -/
def nameFalsy : Option String → Bool
  | none => true
  | some s => s == ""

/-- The `settings-changed` handler (lines 119–131): ignores non-cancelable or
already-prevented events; otherwise prevents default and either rejects with
`"Name is not set."` (falsy name) or runs `store`.  Returns the updated
event, storage, and emitted notifications. -/
def prefChangeHandler (dataPrefix : Option String) (e : PrefChangeEvent)
    (σ : LStorage) : PrefChangeEvent × LStorage × List (String × JSVal) :=
  if !e.cancelable || e.defaultPrevented then (e, σ, [])
  else
    if nameFalsy e.name then
      (⟨e.cancelable, true, e.name, e.value, some (.error "Name is not set.")⟩, σ, [])
    else
      let r := prefStore dataPrefix σ (e.name.getD "") e.value
      (⟨e.cancelable, true, e.name, e.value, some r.1⟩, r.2.1, r.2.2)

/-! ## Workspace Store (`ArcLocalStoreWorkspace`)

Current implementation: `src/unnamed/part_000` (Lit element with a
constructor-set `dataPrefix : String`, default `"_arcworkspace"`).  Legacy
implementation: `src/arc-local-store-workspace.js` (Polymer element whose
declared property is `prefix`, while its methods read `this.dataPrefix`). -/

/-- The members of an object, as `Object.keys` enumeration order pairs. -/
def objFields : JSObj → List (String × JSVal)
  | .nil => []
  | .cons k v tl => (k, .json v) :: objFields tl

/-- Model of `Object.keys(workspace)` together with the member values, for the value
shapes that can reach `_store`: objects enumerate their members, strings
enumerate their indexed characters, all other primitives have no own
enumerable properties. -/
def jsFields : JSVal → List (String × JSVal)
  | .json (.obj ms) => objFields ms
  | .json (.str s) =>
    (s.data.enum).map fun p => (String.mk (natChars p.1), .json (.str (String.mk [p.2])))
  | _ => []

/-- Method `_store(workspace)` (part_000 lines 116–130, legacy lines 108–122):
nothing on a falsy workspace; otherwise one `setItem` per field under
`(dataPrefix || '') + "." + field`, each wrapped by the codec; individual
write errors are caught and skipped. -/
def wsFlushStore (dataPrefix : Option String) (workspace : JSVal)
    (σ : LStorage) : LStorage :=
  if jsFalsy workspace then σ
  else
    (jsFields workspace).foldl
      (fun σ kv =>
        let pfx := dataPrefix.getD ""
        let sKey := pfx ++ "." ++ kv.1
        match setItem σ sKey (toStorageString (wrap kv.2)) with
        | .ok σ' => σ'
        | .error _ => σ)
      σ

/-- The debounce state of a workspace element: `__pendingWorkspace` and
`__workspaceWriteDebounce` (modelled as the absolute time at which the armed
timer fires). -/
structure WSState : Type where
  pending : JSVal
  timer : Option Nat
  deriving DecidableEq

/-- Method `store(value)` called at time `t` (part_000 lines 104–114, legacy lines
96–106): records the pending workspace, cancels any armed timer and arms a
new 500 ms one.  No validation, no result channel. -/
def wsStoreCall (t : Nat) (value : JSVal) (_s : WSState) : WSState :=
  ⟨value, some (t + 500)⟩

/-- The armed timer's callback: clears the debouncer, flushes the pending
workspace with `_store`, clears the pending value. -/
def wsFire (dataPrefix : Option String) (s : WSState) (σ : LStorage) :
    WSState × LStorage :=
  (⟨.jsUndefined, none⟩, wsFlushStore dataPrefix s.pending σ)

/-- Run the timer callback first if its deadline has been reached by time
`t`. -/
def fireIfDue (dataPrefix : Option String) (t : Nat) (s : WSState)
    (σ : LStorage) : WSState × LStorage :=
  match s.timer with
  | some d => if d ≤ t then wsFire dataPrefix s σ else (s, σ)
  | none => (s, σ)

/-- Single-threaded execution of a chronological schedule of `store` calls
`(time, value)`, firing the debounce timer whenever its deadline passes;
after the last call the armed timer (if any) eventually fires. -/
def wsRun (dataPrefix : Option String) :
    List (Nat × JSVal) → WSState → LStorage → LStorage
  | [], s, σ =>
    match s.timer with
    | some _ => (wsFire dataPrefix s σ).2
    | none => σ
  | (t, v) :: rest, s, σ =>
    let p := fireIfDue dataPrefix t s σ
    wsRun dataPrefix rest (wsStoreCall t v p.1) p.2

/-- Workspace `clear()` of the current element (part_000 lines 135–143):
bare-prefix match with `this.dataPrefix` (a string, set in the
constructor). -/
def wsClear (dataPrefix : String) (σ : LStorage) : LStorage :=
  clearCore dataPrefix σ

/-- A `workspace-state-store` request event (`e.detail.value`). -/
structure WSChangeEvent : Type where
  cancelable : Bool
  defaultPrevented : Bool
  value : JSVal
  result : Option (Except String Unit)

/-- The `workspace-state-store` handler (part_000 lines 64–76, legacy lines
59–71): ignores non-cancelable or already-prevented events; otherwise
prevents default, rejects with `"Value is not set."` on a falsy value (before
`store` is ever called), else calls `store(value)` fire-and-forget (no
result is set). -/
def wsChangeHandler (t : Nat) (e : WSChangeEvent) (s : WSState) :
    WSChangeEvent × WSState :=
  if !e.cancelable || e.defaultPrevented then (e, s)
  else
    if jsFalsy e.value then
      (⟨e.cancelable, true, e.value, some (.error "Value is not set.")⟩, s)
    else
      (⟨e.cancelable, true, e.value, e.result⟩, wsStoreCall t e.value s)

/-! ## Legacy workspace element (`src/arc-local-store-workspace.js`)

Its declared Polymer property is `prefix` (default `"_arcworkspace"`), but
`load`, `_store` and `clear` all read `this.dataPrefix`, which this element
never defines. -/

/-- The legacy element's relevant state: the declared `prefix` property and
the (never assigned, hence `none`) `dataPrefix` slot. -/
structure LegacyWorkspaceElement : Type where
  prefixProp : String
  dataPrefix : Option String

/-- A legacy workspace element as constructed, with `prefix` configured to
`p`: `dataPrefix` is not defined anywhere on it. -/
def mkLegacy (p : String) : LegacyWorkspaceElement := ⟨p, none⟩

/-- The shared unscoped `load()` scan over a computed `prefix + "."` string
(part_000 lines 82–96, legacy lines 76–89): collect and decode every entry
whose key starts with it. -/
def wsLoadScan (prefixDot : String) (σ : LStorage) : List (String × JSVal) :=
  let pLen := prefixDot.length
  σ.entries.foldl
    (fun result p =>
      let key := p.1
      if prefixDot.data.isPrefixOf key.data then
        result ++ [(String.mk (key.data.drop pLen), unwrap (getItem σ key))]
      else result)
    []

/-- Legacy `load()` (lines 76–89): scans with `(this.dataPrefix || '') + '.'`. -/
def legacyLoad (el : LegacyWorkspaceElement) (σ : LStorage) :
    List (String × JSVal) :=
  wsLoadScan ((el.dataPrefix.getD "") ++ ".") σ

/-- Legacy `_store(workspace)` (lines 108–122): same per-field write loop,
with `this.dataPrefix || ''` as the prefix. -/
def legacyStoreFlush (el : LegacyWorkspaceElement) (workspace : JSVal)
    (σ : LStorage) : LStorage :=
  wsFlushStore el.dataPrefix workspace σ

/-- Legacy `clear()` (lines 126–134): `const prefix = this.dataPrefix` with
*no* fallback, then `key.indexOf(prefix) === 0`; JS `String.prototype.indexOf`
coerces an `undefined` argument to the string `"undefined"`. -/
def legacyClear (el : LegacyWorkspaceElement) (σ : LStorage) : LStorage :=
  clearCore (match el.dataPrefix with | some s => s | none => "undefined") σ

/-- Association-list lookup in a result object built by `load`. -/
def alookup : List (String × JSVal) → String → Option JSVal
  | [], _ => none
  | (k, v) :: tl, key => if k = key then some v else alookup tl key

/-! ## Round-trip of the modelled JSON host functions -/

theorem string_mk_data (s : String) : String.mk s.data = s := rfl

theorem takeWhile_app (p : Char → Bool) : ∀ (l1 l2 : List Char),
    (∀ c ∈ l1, p c = true) →
    (l1 ++ l2).takeWhile p = l1 ++ l2.takeWhile p := by
  intro l1
  induction l1 with
  | nil => simp
  | cons c r ih =>
    intro l2 h
    simp only [List.cons_append, List.takeWhile_cons, h c (by simp)]
    simp [ih l2 fun x hx => h x (by simp [hx])]

theorem dropWhile_app (p : Char → Bool) : ∀ (l1 l2 : List Char),
    (∀ c ∈ l1, p c = true) →
    (l1 ++ l2).dropWhile p = l2.dropWhile p := by
  intro l1
  induction l1 with
  | nil => simp
  | cons c r ih =>
    intro l2 h
    simp only [List.cons_append, List.dropWhile_cons, h c (by simp)]
    simp [ih l2 fun x hx => h x (by simp [hx])]

theorem dropWhile_of_takeWhile_nil {p : Char → Bool} {l : List Char}
    (h : l.takeWhile p = []) : l.dropWhile p = l := by
  cases l with
  | nil => rfl
  | cons c r =>
    rw [List.takeWhile_cons] at h
    rw [List.dropWhile_cons]
    by_cases hp : p c = true
    · simp [hp] at h
    · simp [hp]

theorem digitVal_digitCh {d : Nat} (h : d < 10) : digitVal (digitCh d) = d := by
  interval_cases d <;> rfl

theorem isDigitCh_digitCh {d : Nat} (h : d < 10) : isDigitCh (digitCh d) = true := by
  interval_cases d <;> rfl

theorem hexVal_hexCh {d : Nat} (h : d < 16) : hexVal (hexCh d) = d := by
  interval_cases d <;> rfl

theorem isHexCh_hexCh {d : Nat} (h : d < 16) : isHexCh (hexCh d) = true := by
  interval_cases d <;> rfl

theorem charsToNat_append_digit (l : List Char) (d : Char) :
    charsToNat (l ++ [d]) = 10 * charsToNat l + digitVal d := by
  unfold charsToNat
  rw [List.foldl_append]
  rfl

theorem natCharsAux_spec : ∀ (f n : Nat), n < f →
    (∀ c ∈ natCharsAux f n, isDigitCh c = true) ∧ natCharsAux f n ≠ [] ∧
      charsToNat (natCharsAux f n) = n := by
  intro f
  induction f with
  | zero => intro n h; omega
  | succ f ih =>
    intro n h
    by_cases h10 : n < 10
    · refine ⟨?_, ?_, ?_⟩
      · intro c hc
        simp [natCharsAux, h10] at hc
        simp [hc, isDigitCh_digitCh h10]
      · simp [natCharsAux, h10]
      · simp [natCharsAux, h10, charsToNat, digitVal_digitCh h10]
    · have hdlt : n / 10 < f := by omega
      obtain ⟨hdig, hne, hval⟩ := ih (n / 10) hdlt
      have hm10 : n % 10 < 10 := by omega
      refine ⟨?_, ?_, ?_⟩
      · intro c hc
        simp only [natCharsAux, h10, if_false, ite_false, List.mem_append,
          List.mem_singleton] at hc
        rcases hc with hc | hc
        · exact hdig c hc
        · simp [hc, isDigitCh_digitCh hm10]
      · simp [natCharsAux, h10]
      · rw [natCharsAux, if_neg h10, charsToNat_append_digit, hval,
          digitVal_digitCh hm10]
        omega

theorem natChars_spec (n : Nat) :
    (∀ c ∈ natChars n, isDigitCh c = true) ∧ natChars n ≠ [] ∧
      charsToNat (natChars n) = n :=
  natCharsAux_spec (n + 1) n (by omega)

/-- Digit characters live in the code-point range 48–57, so a digit is none
of the parser's value-start dispatch characters (whose code points all lie
outside that range). -/
theorem digit_not_special {c : Char} (h : isDigitCh c = true) :
    c ≠ 'n' ∧ c ≠ 't' ∧ c ≠ 'f' ∧ c ≠ '"' ∧ c ≠ '[' ∧ c ≠ '{' ∧ c ≠ '-' := by
  simp only [isDigitCh, Bool.and_eq_true, decide_eq_true_eq] at h
  have hout : ∀ d : Char, d.toNat < 48 ∨ 57 < d.toNat → c ≠ d := by
    intro d hd he
    rw [he] at h
    omega
  have e1 : (110 : Nat) = Char.toNat 'n' := rfl
  have e2 : (116 : Nat) = Char.toNat 't' := rfl
  have e3 : (102 : Nat) = Char.toNat 'f' := rfl
  have e4 : (34 : Nat) = Char.toNat '"' := rfl
  have e5 : (91 : Nat) = Char.toNat '[' := rfl
  have e6 : (123 : Nat) = Char.toNat '{' := rfl
  have e7 : (45 : Nat) = Char.toNat '-' := rfl
  exact ⟨hout 'n' (Or.inr (e1 ▸ by omega)), hout 't' (Or.inr (e2 ▸ by omega)),
    hout 'f' (Or.inr (e3 ▸ by omega)), hout '"' (Or.inl (e4 ▸ by omega)),
    hout '[' (Or.inr (e5 ▸ by omega)), hout '{' (Or.inr (e6 ▸ by omega)),
    hout '-' (Or.inl (e7 ▸ by omega))⟩

/-- A serialized value is never empty, and its first character is never the
array terminator `]` (needed to tell a one-or-more-element array body from an
empty one). -/
theorem serV_head_spec (v : JSValue) :
    ∃ c cs, serV v = c :: cs ∧ (c == ']') = false := by
  cases v with
  | null => exact ⟨'n', _, rfl, rfl⟩
  | bool b => cases b with
    | false => exact ⟨'f', _, rfl, rfl⟩
    | true => exact ⟨'t', _, rfl, rfl⟩
  | num n =>
    by_cases hn : n < 0
    · refine ⟨'-', natChars n.natAbs, ?_, rfl⟩
      simp [serV, intChars, hn]
    · obtain ⟨hdig, hne, _⟩ := natChars_spec n.natAbs
      obtain ⟨c, cs, hc⟩ := List.exists_cons_of_ne_nil hne
      have hd : isDigitCh c = true := hdig c (by rw [hc]; simp)
      refine ⟨c, cs, by simp [serV, intChars, hn, hc], ?_⟩
      simp only [isDigitCh, Bool.and_eq_true, decide_eq_true_eq] at hd
      have hbr : (93 : Nat) = Char.toNat ']' := rfl
      simp only [beq_eq_false_iff_ne, ne_eq]
      intro he
      rw [he] at hd
      omega
  | str s => exact ⟨'"', _, rfl, rfl⟩
  | arr l => exact ⟨'[', _, rfl, rfl⟩
  | obj ms => exact ⟨'{', _, rfl, rfl⟩

theorem expectChars_append (p rest : List Char) :
    expectChars p (p ++ rest) = some rest := by
  induction p with
  | nil => rfl
  | cons c cs ih => simp [expectChars, ih]

/-- The string-body parser inverts the serializer's escaping. -/
theorem parseStrAux_escape : ∀ (cs rest : List Char) (f : Nat),
    (escape cs).length < f →
    parseStrAux f (escape cs ++ '"' :: rest) = some (cs, rest) := by
  intro cs
  induction cs with
  | nil =>
    intro rest f hf
    obtain ⟨f1, rfl⟩ : ∃ f1, f = f1 + 1 := ⟨f - 1, by omega⟩
    rfl
  | cons c r ih =>
    intro rest f hf
    rw [show escape (c :: r) = escChar c ++ escape r from rfl] at hf ⊢
    rw [List.length_append] at hf
    rw [List.append_assoc]
    unfold escChar at hf ⊢
    by_cases h1 : c = '"'
    · subst h1
      simp only [if_true, ite_true, List.length_cons, List.length_nil,
        reduceIte] at hf
      obtain ⟨f2, rfl⟩ : ∃ f2, f = f2 + 1 + 1 := ⟨f - 2, by omega⟩
      simp +decide [parseStrAux, parseEsc, escDecode, ih rest f2 (by omega)]
    · by_cases h2 : c = '\\'
      · subst h2
        simp only [h1, if_false, if_true, ite_true, ite_false, List.length_cons,
          List.length_nil, reduceIte] at hf
        obtain ⟨f2, rfl⟩ : ∃ f2, f = f2 + 1 + 1 := ⟨f - 2, by omega⟩
        simp +decide [parseStrAux, parseEsc, escDecode, ih rest f2 (by omega)]
      · by_cases h3 : c = '\n'
        · subst h3
          simp only [h1, h2, if_false, if_true, ite_true, ite_false,
            List.length_cons, List.length_nil, reduceIte] at hf ⊢
          obtain ⟨f2, rfl⟩ : ∃ f2, f = f2 + 1 + 1 := ⟨f - 2, by omega⟩
          simp +decide [parseStrAux, parseEsc, escDecode, ih rest f2 (by omega)]
        · by_cases h4 : c = '\r'
          · subst h4
            simp only [h1, h2, h3, if_false, if_true, ite_true, ite_false,
              List.length_cons, List.length_nil, reduceIte] at hf ⊢
            obtain ⟨f2, rfl⟩ : ∃ f2, f = f2 + 1 + 1 := ⟨f - 2, by omega⟩
            simp +decide [parseStrAux, parseEsc, escDecode, ih rest f2 (by omega)]
          · by_cases h5 : c = '\t'
            · subst h5
              simp only [h1, h2, h3, h4, if_false, if_true, ite_true, ite_false,
                List.length_cons, List.length_nil, reduceIte] at hf ⊢
              obtain ⟨f2, rfl⟩ : ∃ f2, f = f2 + 1 + 1 := ⟨f - 2, by omega⟩
              simp +decide [parseStrAux, parseEsc, escDecode, ih rest f2 (by omega)]
            · by_cases h6 : c.toNat = 8
              · have hc : c = Char.ofNat 8 := by rw [← Char.ofNat_toNat c, h6]
                simp only [h1, h2, h3, h4, h5, h6, if_false, if_true, ite_true,
                  ite_false, List.length_cons, List.length_nil, reduceIte] at hf ⊢
                obtain ⟨f2, rfl⟩ : ∃ f2, f = f2 + 1 + 1 := ⟨f - 2, by omega⟩
                simp +decide [parseStrAux, parseEsc, escDecode,
                  ih rest f2 (by omega), hc]
              · by_cases h7 : c.toNat = 12
                · have hc : c = Char.ofNat 12 := by rw [← Char.ofNat_toNat c, h7]
                  simp +decide [h1, h2, h3, h4, h5, h6, h7] at hf ⊢
                  obtain ⟨f2, rfl⟩ : ∃ f2, f = f2 + 1 + 1 := ⟨f - 2, by omega⟩
                  simp +decide [parseStrAux, parseEsc, escDecode,
                    ih rest f2 (by omega), hc]
                · by_cases h8 : c.toNat < 32
                  · have hd : c.toNat / 16 < 16 := by omega
                    have hm : c.toNat % 16 < 16 := by omega
                    have h0 : hexVal '0' = 0 := rfl
                    simp only [h1, h2, h3, h4, h5, h6, h7, h8, if_false, if_true,
                      ite_true, ite_false, List.length_cons, List.length_nil,
                      reduceIte] at hf ⊢
                    obtain ⟨f3, rfl⟩ : ∃ f3, f = f3 + 1 + 1 + 1 := ⟨f - 3, by omega⟩
                    simp +decide [parseStrAux, parseEsc, parseHex4,
                      isHexCh_hexCh hd, isHexCh_hexCh hm, hexVal_hexCh hd,
                      hexVal_hexCh hm, ih rest f3 (by omega), h0]
                    rw [show (c.toNat / 16) * 16 + c.toNat % 16 = c.toNat by omega]
                    exact Char.ofNat_toNat c
                  · simp only [h1, h2, h3, h4, h5, h6, h7, h8, if_false, if_true,
                      ite_true, ite_false, List.length_cons, List.length_nil,
                      reduceIte] at hf ⊢
                    obtain ⟨f1, rfl⟩ : ∃ f1, f = f1 + 1 := ⟨f - 1, by omega⟩
                    simp +decide [parseStrAux, h1, h2, ih rest f1 (by omega)]

/-- After an array element the input resumes with `,` or `]`: no digit. -/
theorem serItemsTail_noLead (tl : JSArr) (rest : List Char) :
    (serItemsTail tl ++ ']' :: rest).takeWhile isDigitCh = [] := by
  cases tl <;> simp +decide [serItemsTail, List.takeWhile_cons]

/-- After an object member the input resumes with `,` or `}`: no digit. -/
theorem serMembersTail_noLead (tl : JSObj) (rest : List Char) :
    (serMembersTail tl ++ '}' :: rest).takeWhile isDigitCh = [] := by
  cases tl <;> simp +decide [serMembersTail, List.takeWhile_cons]

mutual

/-- The modelled `JSON.parse` value parser inverts the modelled
`JSON.stringify` on any input continuation that does not begin with a
digit. -/
theorem parseV_serV : ∀ (v : JSValue) (rest : List Char) (f : Nat),
    (serV v).length ≤ f → rest.takeWhile isDigitCh = [] →
    parseV f (serV v ++ rest) = some (v, rest)
  | .null, rest, f, hf, _ => by
    rw [show serV .null = ['n', 'u', 'l', 'l'] from rfl] at hf ⊢
    obtain ⟨f1, rfl⟩ : ∃ f1, f = f1 + 1 := ⟨f - 1, by simp at hf; omega⟩
    have he := expectChars_append ['u', 'l', 'l'] rest
    simp only [List.cons_append, List.nil_append] at he ⊢
    rw [parseV]
    simp +decide [he]
  | .bool true, rest, f, hf, _ => by
    rw [show serV (.bool true) = ['t', 'r', 'u', 'e'] from rfl] at hf ⊢
    obtain ⟨f1, rfl⟩ : ∃ f1, f = f1 + 1 := ⟨f - 1, by simp at hf; omega⟩
    have he := expectChars_append ['r', 'u', 'e'] rest
    simp only [List.cons_append, List.nil_append] at he ⊢
    rw [parseV]
    simp +decide [he]
  | .bool false, rest, f, hf, _ => by
    rw [show serV (.bool false) = ['f', 'a', 'l', 's', 'e'] from rfl] at hf ⊢
    obtain ⟨f1, rfl⟩ : ∃ f1, f = f1 + 1 := ⟨f - 1, by simp at hf; omega⟩
    have he := expectChars_append ['a', 'l', 's', 'e'] rest
    simp only [List.cons_append, List.nil_append] at he ⊢
    rw [parseV]
    simp +decide [he]
  | .num n, rest, f, hf, hrest => by
    obtain ⟨hdig, hne, hval⟩ := natChars_spec n.natAbs
    obtain ⟨c, cs, hc⟩ := List.exists_cons_of_ne_nil hne
    have hdc : isDigitCh c = true := hdig c (by rw [hc]; simp)
    obtain ⟨hn1, hn2, hn3, hn4, hn5, hn6, hn7⟩ := digit_not_special hdc
    have htw : (natChars n.natAbs ++ rest).takeWhile isDigitCh
        = natChars n.natAbs := by
      rw [takeWhile_app isDigitCh _ _ hdig, hrest, List.append_nil]
    have hdw : (natChars n.natAbs ++ rest).dropWhile isDigitCh = rest := by
      rw [dropWhile_app isDigitCh _ _ hdig, dropWhile_of_takeWhile_nil hrest]
    by_cases hn : n < 0
    · have hser : serV (.num n) = '-' :: natChars n.natAbs := by
        simp [serV, intChars, hn]
      rw [hser] at hf ⊢
      rw [hc] at hf
      simp only [List.length_cons] at hf
      obtain ⟨f2, rfl⟩ : ∃ f2, f = f2 + 1 + 1 := ⟨f - 2, by omega⟩
      rw [List.cons_append, hc, List.cons_append, parseV]
      simp +decide only [reduceIte]
      rw [parseNeg, if_pos hdc, ← List.cons_append, ← hc, htw, hdw, hval]
      have hcast : -((n.natAbs : Int)) = n := by omega
      rw [hcast]
    · have hser : serV (.num n) = natChars n.natAbs := by
        simp [serV, intChars, hn]
      rw [hser] at hf ⊢
      rw [hc] at hf ⊢
      simp only [List.length_cons] at hf
      obtain ⟨f1, rfl⟩ : ∃ f1, f = f1 + 1 := ⟨f - 1, by omega⟩
      rw [List.cons_append, parseV, if_neg hn1, if_neg hn2, if_neg hn3,
        if_neg hn4, if_neg hn5, if_neg hn6, if_neg hn7, if_pos hdc,
        ← List.cons_append, ← hc, htw, hdw, hval]
      have hcast : ((n.natAbs : Int)) = n := by omega
      rw [hcast]
  | .str s, rest, f, hf, _ => by
    rw [show serV (.str s) = '"' :: (escape s.data ++ ['"']) from rfl] at hf ⊢
    simp only [List.length_cons, List.length_append, List.length_singleton] at hf
    obtain ⟨f1, rfl⟩ : ∃ f1, f = f1 + 1 := ⟨f - 1, by omega⟩
    simp only [List.cons_append, List.append_assoc, List.singleton_append,
      List.nil_append]
    rw [parseV]
    simp +decide only [reduceIte]
    rw [parseStrAux_escape s.data rest f1 (by omega)]
    simp [string_mk_data]
  | .arr l, rest, f, hf, _ => by
    rw [show serV (.arr l) = '[' :: (serItems l ++ [']']) from rfl] at hf ⊢
    simp only [List.length_cons, List.length_append, List.length_singleton] at hf
    obtain ⟨f1, rfl⟩ : ∃ f1, f = f1 + 1 := ⟨f - 1, by omega⟩
    simp only [List.cons_append, List.append_assoc, List.singleton_append,
      List.nil_append]
    rw [parseV]
    simp +decide only [reduceIte]
    cases l with
    | nil =>
      rw [show serItems .nil = [] from rfl]
      obtain ⟨f2, rfl⟩ : ∃ f2, f1 = f2 + 1 := ⟨f1 - 1, by omega⟩
      rw [List.nil_append, parseArr0]
      simp +decide
    | cons v tl =>
      rw [show serItems (.cons v tl) = serV v ++ serItemsTail tl from rfl] at hf ⊢
      simp only [List.length_append] at hf
      obtain ⟨c, cs, hcv, hcb⟩ := serV_head_spec v
      have hc1 : ¬c = ']' := by simpa using hcb
      obtain ⟨f2, rfl⟩ : ∃ f2, f1 = f2 + 1 := ⟨f1 - 1, by omega⟩
      rw [List.append_assoc, hcv, List.cons_append, parseArr0, if_neg hc1,
        ← List.cons_append, ← hcv]
      have hlen : (serV v).length = cs.length + 1 := by rw [hcv]; rfl
      rw [parseV_serV v (serItemsTail tl ++ ']' :: rest) f2
        (by simp at hf; omega) (serItemsTail_noLead tl rest)]
      simp [parseItems_serItemsTail tl rest f2 (by simp at hf; omega)]
  | .obj ms, rest, f, hf, _ => by
    rw [show serV (.obj ms) = '{' :: (serMembers ms ++ ['}']) from rfl] at hf ⊢
    simp only [List.length_cons, List.length_append, List.length_singleton] at hf
    obtain ⟨f1, rfl⟩ : ∃ f1, f = f1 + 1 := ⟨f - 1, by omega⟩
    simp only [List.cons_append, List.append_assoc, List.singleton_append,
      List.nil_append]
    rw [parseV]
    simp +decide only [reduceIte]
    cases ms with
    | nil =>
      rw [show serMembers .nil = [] from rfl]
      obtain ⟨f2, rfl⟩ : ∃ f2, f1 = f2 + 1 := ⟨f1 - 1, by omega⟩
      rw [List.nil_append, parseObj0]
      simp +decide
    | cons k v tl =>
      simp only [serMembers, serStr] at hf ⊢
      simp only [List.length_append, List.length_cons, List.length_singleton] at hf
      obtain ⟨f3, rfl⟩ : ∃ f3, f1 = f3 + 1 + 1 := ⟨f1 - 2, by omega⟩
      simp only [List.cons_append, List.append_assoc, List.singleton_append,
      List.nil_append]
      rw [parseObj0]
      simp +decide only [reduceIte]
      rw [parseStrAux_escape k.data _ (f3 + 1) (by omega)]
      simp only [Option.some_bind]
      rw [parseFirstMemberCont]
      simp +decide only [reduceIte]
      rw [parseV_serV v (serMembersTail tl ++ '}' :: rest) f3 (by omega)
        (serMembersTail_noLead tl rest)]
      simp [parseMembers_serMembersTail tl rest f3 (by omega), string_mk_data]

/-- The array-continuation parser inverts `serItemsTail`. -/
theorem parseItems_serItemsTail : ∀ (tl : JSArr) (rest : List Char) (f : Nat),
    (serItemsTail tl).length < f →
    parseItems f (serItemsTail tl ++ ']' :: rest) = some (tl, rest)
  | .nil, rest, f, hf => by
    obtain ⟨f1, rfl⟩ : ∃ f1, f = f1 + 1 := ⟨f - 1, by omega⟩
    rw [show serItemsTail .nil = [] from rfl, List.nil_append, parseItems]
    simp +decide
  | .cons v tl, rest, f, hf => by
    rw [show serItemsTail (.cons v tl) = ',' :: (serV v ++ serItemsTail tl)
      from rfl] at hf ⊢
    simp only [List.length_cons, List.length_append] at hf
    obtain ⟨f1, rfl⟩ : ∃ f1, f = f1 + 1 := ⟨f - 1, by omega⟩
    rw [List.cons_append, List.append_assoc, parseItems]
    simp +decide only [reduceIte]
    rw [parseV_serV v (serItemsTail tl ++ ']' :: rest) f1 (by omega)
      (serItemsTail_noLead tl rest)]
    simp [parseItems_serItemsTail tl rest f1 (by omega)]

/-- The member-continuation parser inverts `serMembersTail`. -/
theorem parseMembers_serMembersTail : ∀ (tl : JSObj) (rest : List Char) (f : Nat),
    (serMembersTail tl).length < f →
    parseMembers f (serMembersTail tl ++ '}' :: rest) = some (tl, rest)
  | .nil, rest, f, hf => by
    obtain ⟨f1, rfl⟩ : ∃ f1, f = f1 + 1 := ⟨f - 1, by omega⟩
    rw [show serMembersTail .nil = [] from rfl, List.nil_append, parseMembers]
    simp +decide
  | .cons k v tl, rest, f, hf => by
    simp only [serMembersTail, serStr] at hf ⊢
    simp only [List.length_cons, List.length_append, List.length_singleton] at hf
    obtain ⟨f3, rfl⟩ : ∃ f3, f = f3 + 1 + 1 + 1 := ⟨f - 3, by omega⟩
    simp only [List.cons_append, List.append_assoc, List.singleton_append,
      List.nil_append]
    rw [parseMembers]
    simp +decide only [reduceIte]
    rw [parseNextMember]
    simp +decide only [reduceIte]
    rw [parseStrAux_escape k.data _ (f3 + 1) (by omega)]
    simp only [Option.some_bind]
    rw [parseMemberCont]
    simp +decide only [reduceIte]
    rw [parseV_serV v (serMembersTail tl ++ '}' :: rest) f3 (by omega)
      (serMembersTail_noLead tl rest)]
    simp [parseMembers_serMembersTail tl rest f3 (by omega), string_mk_data]

end

/-- The modelled `JSON.parse` inverts the modelled `JSON.stringify`. -/
theorem jsonParse_stringify (v : JSValue) :
    jsonParse (jsonStringify v) = some v := by
  have h := parseV_serV v [] ((serV v).length + 1) (by omega) rfl
  rw [List.append_nil] at h
  unfold jsonParse jsonStringify
  rw [show (String.mk (serV v)).length = (serV v).length from rfl,
    show (String.mk (serV v)).data = serV v from rfl, h]

theorem serV_obj_ne_nil (ms : JSObj) : serV (.obj ms) ≠ [] := by
  rw [show serV (.obj ms) = '{' :: (serMembers ms ++ ['}']) from rfl]
  simp

/-- On any non-`null`, non-`undefined` value, `wrap` produces the JSON text of
the `{ value }` wrapper object. -/
theorem wrap_json (v : JSValue) (hv : v ≠ JSValue.null) :
    wrap (.json v)
      = .json (.str (jsonStringify (.obj (.cons "value" v .nil)))) := by
  cases v with
  | null => exact absurd rfl hv
  | bool b => rfl
  | num n => rfl
  | str s => rfl
  | arr l => rfl
  | obj ms => rfl

/-- C1: Codec round-trip: for every JSON-serializable value `v` that is
neither `undefined` nor `null` (booleans, numbers, strings, nested
objects/arrays), `unwrap (wrap v)` is (deep-)equal to `v`. -/
theorem C1_codec_roundtrip (v : JSValue) (hv : v ≠ JSValue.null) :
    unwrap (wrap (.json v)) = .json v := by
  rw [wrap_json v hv]
  have hne : jsonStringify (.obj (.cons "value" v .nil)) ≠ "" := by
    intro h
    have hdata : serV (.obj (.cons "value" v .nil)) = [] := congrArg String.data h
    exact serV_obj_ne_nil _ hdata
  unfold unwrap
  rw [if_neg (by simp [jsFalsy, hne])]
  change (match jsonParse (jsonStringify (.obj (.cons "value" v .nil))) with
    | some j => dotValue j
    | none => JSVal.jsUndefined) = .json v
  rw [jsonParse_stringify]
  simp +decide [dotValue, objLookup]

/-- C1 witness: The round-trip theorem applied at the boolean `true`. -/
theorem C1_codec_roundtrip_witness :
    (JSValue.bool true ≠ JSValue.null) ∧
      unwrap (wrap (.json (.bool true))) = .json (.bool true) :=
  ⟨by decide, C1_codec_roundtrip (.bool true) (by decide)⟩

/-! ## Preferences Store `store` (C6, C7) -/

/-- A successful `setItem` leaves exactly the updated entry list. -/
theorem setItem_ok_entries {σ σ' : LStorage} {k val : String}
    (h : setItem σ k val = .ok σ') :
    σ'.entries = setItemRaw σ.entries k val := by
  obtain ⟨ents, quota⟩ := σ
  cases quota with
  | none =>
    simp only [setItem] at h
    injection h with h
    rw [← h]
  | some q =>
    simp only [setItem] at h
    by_cases hlt : q < (setItemRaw ents k val).length
    · rw [if_pos hlt] at h
      exact absurd h (by simp)
    · rw [if_neg hlt] at h
      injection h with h
      rw [← h]

/-- After `setItemRaw st k v`, looking up `k` yields `v`. -/
theorem lookupEntry_setItemRaw (st : List (String × String)) (k v : String) :
    lookupEntry (setItemRaw st k v) k = some v := by
  unfold setItemRaw
  by_cases hc : (st.map Prod.fst).contains k
  · rw [if_pos hc]
    induction st with
    | nil => simp at hc
    | cons p tl ih =>
      by_cases hp : p.1 = k
      · rw [List.map_cons, if_pos hp]
        simp [lookupEntry]
      · have hc' : (tl.map Prod.fst).contains k = true := by
          rw [List.map_cons, List.contains_cons] at hc
          rcases Bool.or_eq_true_iff.mp hc with h | h
          · have hk : k = p.1 := by simpa using h
            exact absurd hk.symm hp
          · exact h
        rw [List.map_cons, if_neg hp]
        simp only [lookupEntry]
        rw [if_neg hp]
        exact ih hc'
  · rw [if_neg hc]
    induction st with
    | nil => simp [lookupEntry]
    | cons p tl ih =>
      rw [List.map_cons, List.contains_cons] at hc
      have hp : ¬p.1 = k := fun hpk => hc (by simp [hpk])
      have hc' : ¬(tl.map Prod.fst).contains k = true := fun hck => hc (by rw [hck]; simp)
      rw [List.cons_append]
      simp only [lookupEntry]
      rw [if_neg hp]
      exact ih hc'

/-- C6: Preferences Store `store` postcondition: for every key and
non-`null`, non-`undefined` value, a successful `store(key, value)` performs
the single `setItem` under `dataPrefix + "." + key` (hypothesis `h` is that
very write succeeding), resolves, leaves the underlying store holding that
storage key mapped to the JSON text `{"value": value}`, and emits exactly one
change notification carrying the original `(key, value)`. -/
theorem C6_pref_store_writes_and_notifies (dataPrefix : Option String)
    (σ σ' : LStorage) (key : String) (v : JSValue) (hv : v ≠ JSValue.null)
    (h : setItem σ (dataPrefix.getD "" ++ "." ++ key)
      (toStorageString (wrap (.json v))) = .ok σ') :
    prefStore dataPrefix σ key (.json v) = (.ok (), σ', [(key, .json v)])
      ∧ lookupEntry σ'.entries (dataPrefix.getD "" ++ "." ++ key)
        = some (jsonStringify (.obj (.cons "value" v .nil))) := by
  constructor
  · simp only [prefStore, h]
  · rw [setItem_ok_entries h, lookupEntry_setItemRaw, wrap_json v hv]
    rfl

/-- C6 witness: Storing `true` under `"key"` with the default `_arc_`
prefix into an empty store with no quota. -/
theorem C6_pref_store_writes_and_notifies_witness :
    ((JSValue.bool true ≠ JSValue.null)
      ∧ setItem ⟨[], none⟩ ((some "_arc_").getD "" ++ "." ++ "key")
          (toStorageString (wrap (.json (.bool true))))
        = .ok ⟨[("_arc_.key", "\x7b\"value\":true\x7d")], none⟩)
    ∧ (prefStore (some "_arc_") ⟨[], none⟩ "key" (.json (.bool true))
        = (.ok (), ⟨[("_arc_.key", "\x7b\"value\":true\x7d")], none⟩,
            [("key", .json (.bool true))])
      ∧ lookupEntry (LStorage.entries ⟨[("_arc_.key", "\x7b\"value\":true\x7d")], none⟩)
          ((some "_arc_").getD "" ++ "." ++ "key")
        = some (jsonStringify (.obj (.cons "value" (.bool true) .nil)))) :=
  ⟨⟨by decide, by rfl⟩,
    C6_pref_store_writes_and_notifies (some "_arc_") ⟨[], none⟩
      ⟨[("_arc_.key", "\x7b\"value\":true\x7d")], none⟩ "key" (.bool true)
      (by decide) (by rfl)⟩

/-- C7: Preferences Store `store` error path: when the underlying store
rejects the write, `store` rejects with that very storage error, the store is
unchanged, and no change notification is emitted. -/
theorem C7_pref_store_error_no_notification (dataPrefix : Option String)
    (σ : LStorage) (key : String) (value : JSVal) (err : String)
    (h : setItem σ (dataPrefix.getD "" ++ "." ++ key)
      (toStorageString (wrap value)) = .error err) :
    prefStore dataPrefix σ key value = (.error err, σ, []) := by
  simp only [prefStore, h]

/-- C7 witness: A store with quota `0` rejects the write
(`QuotaExceededError`); `store` rejects and emits nothing. -/
theorem C7_pref_store_error_no_notification_witness :
    (setItem ⟨[], some 0⟩ ((some "_arc_").getD "" ++ "." ++ "key")
        (toStorageString (wrap (.json (.bool true))))
      = .error "QuotaExceededError")
    ∧ prefStore (some "_arc_") ⟨[], some 0⟩ "key" (.json (.bool true))
      = (.error "QuotaExceededError", ⟨[], some 0⟩, []) :=
  ⟨by rfl,
    C7_pref_store_error_no_notification (some "_arc_") ⟨[], some 0⟩ "key"
      (.json (.bool true)) "QuotaExceededError" (by rfl)⟩

/-! ## `clear()` (C4, C5) -/

theorem get?_append_middle (l1 l2 : List (String × String)) (b : String × String) :
    (l1 ++ b :: l2).get? l1.length = some b := by
  rw [List.get?_eq_getElem?, List.getElem?_append_right (by omega)]
  simp

/-- Removal with a key found nowhere else removes exactly that entry. -/
theorem removeItem_middle (l1 l2 : List (String × String)) (a : String × String)
    (h1 : a.1 ∉ l1.map Prod.fst) (h2 : a.1 ∉ l2.map Prod.fst) :
    removeItem (l1 ++ a :: l2) a.1 = l1 ++ l2 := by
  unfold removeItem
  rw [List.filter_append, List.filter_cons]
  have ha : (!(a.1 == a.1)) = false := by simp
  rw [ha]
  simp only [Bool.false_eq_true, if_false, ite_false]
  rw [List.filter_eq_self.mpr, List.filter_eq_self.mpr]
  · intro x hx
    simp only [Bool.not_eq_eq_eq_not, Bool.not_true, beq_eq_false_iff_ne, ne_eq]
    intro hk
    exact h2 (hk ▸ List.mem_map_of_mem Prod.fst hx)
  · intro x hx
    simp only [Bool.not_eq_eq_eq_not, Bool.not_true, beq_eq_false_iff_ne, ne_eq]
    intro hk
    exact h1 (hk ▸ List.mem_map_of_mem Prod.fst hx)

/-- The downward `clear()` loop deletes exactly the bare-prefix matches among
the first `l1.length` entries and leaves the rest untouched. -/
theorem clearFrom_spec (pfx : String) : ∀ (l1 l2 : List (String × String)),
    ((l1 ++ l2).map Prod.fst).Nodup →
    clearFrom pfx l1.length (l1 ++ l2)
      = l1.filter (fun q => !(pfx.data.isPrefixOf q.1.data)) ++ l2 := by
  intro l1
  induction l1 using List.reverseRecOn with
  | nil =>
    intro l2 _
    simp [clearFrom]
  | append_singleton l1 a ih =>
    intro l2 hnd
    have hkeys : a.1 ∉ l1.map Prod.fst ∧ a.1 ∉ l2.map Prod.fst := by
      rw [List.append_assoc, List.singleton_append, List.map_append,
        List.map_cons] at hnd
      rw [List.nodup_append] at hnd
      obtain ⟨_, hcons, hdisj⟩ := hnd
      exact ⟨fun hmem => hdisj hmem (by simp), by
        rw [List.nodup_cons] at hcons
        exact hcons.1⟩
    have hnd' : ((l1 ++ a :: l2).map Prod.fst).Nodup := by
      rw [List.append_assoc, List.singleton_append] at hnd
      exact hnd
    have hndsub : ((l1 ++ l2).map Prod.fst).Nodup := by
      apply List.Nodup.sublist _ hnd'
      apply List.Sublist.map
      exact List.Sublist.append_left (List.sublist_cons_self a l2) l1
    rw [List.length_append, List.length_singleton, List.append_assoc,
      List.singleton_append]
    show clearFrom pfx (l1.length + 1) (l1 ++ a :: l2) = _
    rw [clearFrom, get?_append_middle]
    show clearFrom pfx l1.length
        (if pfx.data.isPrefixOf a.1.data = true then removeItem (l1 ++ a :: l2) a.1
          else l1 ++ a :: l2) = _
    by_cases hpf : pfx.data.isPrefixOf a.1.data
    · rw [if_pos hpf, removeItem_middle l1 l2 a hkeys.1 hkeys.2, ih l2 hndsub]
      rw [List.filter_append, List.filter_singleton]
      simp [hpf]
    · rw [if_neg hpf, ih (a :: l2) hnd']
      rw [List.filter_append, List.filter_singleton]
      simp [hpf]

/-- C4: Preferences Store `clear()`: for every store state (with the real
store's unique keys), exactly the entries whose key starts with the *bare*
prefix (`dataPrefix || ''`, not `dataPrefix + "."`) are removed; every other
entry is left unchanged. -/
theorem C4_pref_clear_bare_prefix_matching (dataPrefix : Option String) (σ : LStorage)
    (h : (σ.entries.map Prod.fst).Nodup) :
    (prefClear dataPrefix σ).entries
      = σ.entries.filter
          (fun q => !((dataPrefix.getD "").data.isPrefixOf q.1.data)) := by
  unfold prefClear clearCore
  have hs := clearFrom_spec (dataPrefix.getD "") σ.entries []
    (by rw [List.append_nil]; exact h)
  rw [List.append_nil] at hs
  rw [hs, List.append_nil]

/-- C4 witness: Seeding `_arc_.a` and `_other_.b` and clearing with prefix
`_arc_` removes `_arc_.a` and keeps `_other_.b`. -/
theorem C4_pref_clear_bare_prefix_matching_witness :
    (((LStorage.entries ⟨[("_arc_.a", "x"), ("_other_.b", "y")], none⟩).map
        Prod.fst).Nodup)
    ∧ (prefClear (some "_arc_")
        ⟨[("_arc_.a", "x"), ("_other_.b", "y")], none⟩).entries
      = (LStorage.entries ⟨[("_arc_.a", "x"), ("_other_.b", "y")], none⟩).filter
          (fun q => !(((some "_arc_").getD "").data.isPrefixOf q.1.data)) :=
  ⟨by decide,
    C4_pref_clear_bare_prefix_matching (some "_arc_")
      ⟨[("_arc_.a", "x"), ("_other_.b", "y")], none⟩ (by decide)⟩

/-- C5: Workspace Store `clear()` (current element): for every store state
(with unique keys), exactly the entries whose key starts with the instance's
configured `dataPrefix` are removed; all other entries are unchanged. -/
theorem C5_ws_clear_own_prefix_only (dataPrefix : String) (σ : LStorage)
    (h : (σ.entries.map Prod.fst).Nodup) :
    (wsClear dataPrefix σ).entries
      = σ.entries.filter (fun q => !(dataPrefix.data.isPrefixOf q.1.data)) := by
  unfold wsClear clearCore
  have hs := clearFrom_spec dataPrefix σ.entries []
    (by rw [List.append_nil]; exact h)
  rw [List.append_nil] at hs
  rw [hs, List.append_nil]

/-- C5 witness: Clearing with the default `_arcworkspace` prefix removes
its keys and keeps a foreign key. -/
theorem C5_ws_clear_own_prefix_only_witness :
    (((LStorage.entries ⟨[("_arcworkspace.w", "x"), ("_arc_.a", "y")], none⟩).map
        Prod.fst).Nodup)
    ∧ (wsClear "_arcworkspace"
        ⟨[("_arcworkspace.w", "x"), ("_arc_.a", "y")], none⟩).entries
      = (LStorage.entries ⟨[("_arcworkspace.w", "x"), ("_arc_.a", "y")], none⟩).filter
          (fun q => !(("_arcworkspace" : String).data.isPrefixOf q.1.data)) :=
  ⟨by decide,
    C5_ws_clear_own_prefix_only "_arcworkspace"
      ⟨[("_arcworkspace.w", "x"), ("_arc_.a", "y")], none⟩ (by decide)⟩

/-! ## Preferences Store `load` (C8) -/

theorem string_data_inj : ∀ {s t : String}, s.data = t.data → s = t
  | ⟨_⟩, ⟨_⟩, rfl => rfl

/-- Stripping `pfx` off `pfx ++ k` gives back `k`. -/
theorem strip_append (pfx k : String) :
    String.mk ((pfx ++ k).data.drop pfx.length) = k := by
  rw [String.data_append, show pfx.length = pfx.data.length from rfl,
    List.drop_left]

/-- A prefix-matching key whose stripped form is `k` is exactly `pfx ++ k`. -/
theorem eq_append_of_strip (pfx : String) (a k : String)
    (hpf : pfx.data.isPrefixOf a.data = true)
    (hst : String.mk (a.data.drop pfx.length) = k) : a = pfx ++ k := by
  obtain ⟨t, ht⟩ := List.isPrefixOf_iff_prefix.mp hpf
  apply string_data_inj
  rw [String.data_append, ← ht]
  have hts : String.mk t = k := by
    rw [← hst, ← ht, show pfx.length = pfx.data.length from rfl, List.drop_left]
  have htd : t = k.data := by rw [← hts]
  rw [htd]

/-- The accumulator form of the `load` scan: it appends exactly the filtered,
decoded entries. -/
theorem foldl_collect {β : Type} (g1 g2 : (String × String) → Bool)
    (F : (String × String) → β) :
    ∀ (L : List (String × String)) (acc : List β),
      L.foldl
        (fun result p =>
          if g1 p then (if g2 p then result else result ++ [F p]) else result)
        acc
      = acc ++ (L.filter (fun p => g1 p && !(g2 p))).map F := by
  intro L
  induction L with
  | nil => intro acc; simp
  | cons a tl ih =>
    intro acc
    rw [List.foldl_cons, List.filter_cons]
    by_cases h1 : g1 a = true
    · by_cases h2 : g2 a = true
      · rw [if_pos h1, if_pos h2, ih acc]
        simp [h1, h2]
      · rw [if_pos h1, if_neg h2, ih (acc ++ [F a])]
        simp [h1, h2]
    · rw [if_neg h1, ih acc]
      simp [h1]

/-- Lemma: `prefLoad` collects exactly the prefix-matching, in-scope entries, in scan
order, each decoded with the codec. -/
theorem prefLoad_eq_filterMap (dataPrefix : Option String) (σ : LStorage)
    (scope : Option (List String)) :
    prefLoad dataPrefix σ scope
      = (σ.entries.filter fun p =>
            (dataPrefix.getD "" ++ ".").data.isPrefixOf p.1.data
              && !(scopeSkip scope
                (String.mk (p.1.data.drop (dataPrefix.getD "" ++ ".").length)))).map
          fun p =>
            (String.mk (p.1.data.drop (dataPrefix.getD "" ++ ".").length),
              unwrap (getItem σ p.1)) := by
  unfold prefLoad
  rw [foldl_collect
    (fun p => (dataPrefix.getD "" ++ ".").data.isPrefixOf p.1.data)
    (fun p => scopeSkip scope
      (String.mk (p.1.data.drop (dataPrefix.getD "" ++ ".").length)))
    (fun p =>
      (String.mk (p.1.data.drop (dataPrefix.getD "" ++ ".").length),
        unwrap (getItem σ p.1)))
    σ.entries []]
  rw [List.nil_append]

theorem lookupEntry_of_mem_nodup : ∀ {l : List (String × String)}
    {p : String × String}, (l.map Prod.fst).Nodup → p ∈ l →
    lookupEntry l p.1 = some p.2 := by
  intro l
  induction l with
  | nil => intro p _ hp; cases hp
  | cons q tl ih =>
    intro p hnd hp
    rw [List.map_cons, List.nodup_cons] at hnd
    rcases List.mem_cons.mp hp with rfl | hmem
    · simp [lookupEntry]
    · have hq : ¬q.1 = p.1 := by
        intro he
        exact hnd.1 (he ▸ List.mem_map_of_mem Prod.fst hmem)
      simp only [lookupEntry]
      rw [if_neg hq]
      exact ih hnd.2 hmem

/-- With the real store's unique keys, `getItem` on an entry's key returns
that entry's stored string. -/
theorem getItem_of_mem {σ : LStorage} (hnd : (σ.entries.map Prod.fst).Nodup)
    {p : String × String} (hp : p ∈ σ.entries) :
    getItem σ p.1 = .json (.str p.2) := by
  unfold getItem
  rw [lookupEntry_of_mem_nodup hnd hp]

/-- Association lookup in the stripped, filtered, decoded scan result, as a
lookup in the underlying store under the full key. -/
theorem alookup_strip_filter (pfx : String) (ks : String → Bool)
    (G : String → JSVal) (k : String) :
    ∀ (L : List (String × String)),
      alookup
        ((L.filter fun p =>
            pfx.data.isPrefixOf p.1.data
              && ks (String.mk (p.1.data.drop pfx.length))).map
          fun p => (String.mk (p.1.data.drop pfx.length), G p.2)) k
      = if ks k = true then (lookupEntry L (pfx ++ k)).map G else none := by
  intro L
  induction L with
  | nil =>
    simp only [List.filter_nil, List.map_nil, alookup, lookupEntry,
      Option.map_none]
    cases hk : ks k <;> simp
  | cons a tl ih =>
    rw [List.filter_cons]
    by_cases hcond : (pfx.data.isPrefixOf a.1.data
        && ks (String.mk (a.1.data.drop pfx.length))) = true
    · rw [if_pos hcond, List.map_cons]
      obtain ⟨hpf, hks⟩ := Bool.and_eq_true_iff.mp hcond
      by_cases hak : a.1 = pfx ++ k
      · have hst : String.mk (a.1.data.drop pfx.length) = k := by
          rw [hak, strip_append]
        simp only [alookup]
        rw [if_pos hst]
        have hkst : ks k = true := hst ▸ hks
        rw [if_pos hkst]
        simp only [lookupEntry]
        rw [if_pos hak]
        rfl
      · have hst : ¬String.mk (a.1.data.drop pfx.length) = k := by
          intro hs
          exact hak (eq_append_of_strip pfx a.1 k hpf hs)
        simp only [alookup]
        rw [if_neg hst, ih]
        simp only [lookupEntry]
        rw [if_neg hak]
    · rw [if_neg hcond, ih]
      by_cases hak : a.1 = pfx ++ k
      · have hpf : pfx.data.isPrefixOf a.1.data = true := by
          rw [hak, String.data_append]
          simp [List.isPrefixOf_iff_prefix]
        have hst : String.mk (a.1.data.drop pfx.length) = k := by
          rw [hak, strip_append]
        have hks : ks k = false := by
          rcases Bool.and_eq_false_iff.mp (Bool.not_eq_true _ ▸ hcond
            : (pfx.data.isPrefixOf a.1.data
                && ks (String.mk (a.1.data.drop pfx.length))) = false) with h | h
          · rw [hpf] at h; cases h
          · rw [hst] at h; exact h
        rw [hks]
        simp
      · simp only [lookupEntry]
        rw [if_neg hak]

/-- C8: Preferences Store `load` filtering: `load` is total (it never
fails), and for every store state (unique keys), scope list and logical key
`k`, the result maps `k` exactly when `dataPrefix + "." + k` is present in
the underlying store and `k` passes the scope filter (scope absent keeps
everything), to the codec-decoded stored value. -/
theorem C8_pref_load_filtering (dataPrefix : Option String) (σ : LStorage)
    (scope : Option (List String)) (k : String)
    (h : (σ.entries.map Prod.fst).Nodup) :
    alookup (prefLoad dataPrefix σ scope) k
      = if scopeSkip scope k = true then none
        else (lookupEntry σ.entries ((dataPrefix.getD "" ++ ".") ++ k)).map
          fun s => unwrap (.json (.str s)) := by
  rw [prefLoad_eq_filterMap]
  rw [List.map_congr_left (fun p hp => by
    rw [getItem_of_mem h (List.mem_of_mem_filter hp)])]
  rw [alookup_strip_filter (dataPrefix.getD "" ++ ".")
    (fun s => !(scopeSkip scope s)) (fun s => unwrap (.json (.str s))) k
    σ.entries]
  cases hsk : scopeSkip scope k <;> simp [hsk]

/-- C8 witness: Over stored keys `{a, b, c, d}` with scope `["a", "c"]`,
looking up `b` in the result: it is filtered out even though present. -/
theorem C8_pref_load_filtering_witness :
    (((LStorage.entries
        ⟨[("_arc_.a", "\x7b\"value\":1\x7d"), ("_arc_.b", "\x7b\"value\":2\x7d"),
          ("_arc_.c", "\x7b\"value\":3\x7d"), ("_arc_.d", "\x7b\"value\":4\x7d")], none⟩).map
        Prod.fst).Nodup)
    ∧ alookup
        (prefLoad (some "_arc_")
          ⟨[("_arc_.a", "\x7b\"value\":1\x7d"), ("_arc_.b", "\x7b\"value\":2\x7d"),
            ("_arc_.c", "\x7b\"value\":3\x7d"), ("_arc_.d", "\x7b\"value\":4\x7d")], none⟩
          (some ["a", "c"])) "b"
      = if scopeSkip (some ["a", "c"]) "b" = true then none
        else (lookupEntry
            (LStorage.entries
              ⟨[("_arc_.a", "\x7b\"value\":1\x7d"), ("_arc_.b", "\x7b\"value\":2\x7d"),
                ("_arc_.c", "\x7b\"value\":3\x7d"), ("_arc_.d", "\x7b\"value\":4\x7d")], none⟩)
            (((some "_arc_").getD "" ++ ".") ++ "b")).map
          fun s => unwrap (.json (.str s)) :=
  ⟨by decide,
    C8_pref_load_filtering (some "_arc_")
      ⟨[("_arc_.a", "\x7b\"value\":1\x7d"), ("_arc_.b", "\x7b\"value\":2\x7d"),
        ("_arc_.c", "\x7b\"value\":3\x7d"), ("_arc_.d", "\x7b\"value\":4\x7d")], none⟩
      (some ["a", "c"]) "b" (by decide)⟩

/-! ## Workspace Store debounce (C2) and falsy `store` (C3) -/

/-- C2: Workspace Store debounce: two `store` calls on the same fresh
instance, the second within 500 ms of the first, end (once the debounce
window elapses) with exactly the flush of `v2` — the final storage equals
`_store(v2)` on the original state, so `v1`'s fields are never written. -/
theorem C2_ws_store_debounce (dataPrefix : Option String) (σ : LStorage)
    (v1 v2 : JSVal) (t1 t2 : Nat) (h : t2 < t1 + 500) :
    wsRun dataPrefix [(t1, v1), (t2, v2)] ⟨.jsUndefined, none⟩ σ
      = wsFlushStore dataPrefix v2 σ := by
  have hnot : ¬(t1 + 500 ≤ t2) := by omega
  simp [wsRun, fireIfDue, wsStoreCall, wsFire, hnot]

/-- C2 witness: Calls at 0 ms and 100 ms. -/
theorem C2_ws_store_debounce_witness :
    ((100 : Nat) < 0 + 500)
    ∧ wsRun (some "_arcworkspace")
        [(0, .json (.obj (.cons "a" (.num 1) .nil))),
          (100, .json (.obj (.cons "b" (.num 2) .nil)))] ⟨.jsUndefined, none⟩
        ⟨[], none⟩
      = wsFlushStore (some "_arcworkspace")
          (.json (.obj (.cons "b" (.num 2) .nil))) ⟨[], none⟩ :=
  ⟨by decide,
    C2_ws_store_debounce (some "_arcworkspace") ⟨[], none⟩
      (.json (.obj (.cons "a" (.num 1) .nil)))
      (.json (.obj (.cons "b" (.num 2) .nil))) 0 100 (by decide)⟩

/-- C3 counterexample: The claim is false as stated: calling the `store`
*method* directly with the falsy value `false` records it as the pending
workspace and arms the 500 ms debounce timer — `store` performs no falsy
check and has no rejection path (the check lives in the
`workspace-state-store` event handler). -/
theorem C3_counterexample :
    jsFalsy (.json (.bool false)) = true
      ∧ (wsStoreCall 0 (.json (.bool false)) ⟨.jsUndefined, none⟩).timer ≠ none
      ∧ (wsStoreCall 0 (.json (.bool false)) ⟨.jsUndefined, none⟩).pending
        = .json (.bool false) := by
  refine ⟨rfl, ?_, rfl⟩
  intro hcontra
  cases hcontra

/-- C3 amended: It is the `workspace-state-store` *event handler* that
rejects a falsy value: on a cancelable, not-yet-prevented event with falsy
`detail.value`, it prevents default, sets a rejected result carrying
`"Value is not set."`, and returns without calling `store` — so no debounce
timer is armed and neither the pending workspace nor the underlying store is
touched. -/
theorem C3_handler_rejects_falsy (t : Nat) (e : WSChangeEvent) (s : WSState)
    (hc : e.cancelable = true) (hp : e.defaultPrevented = false)
    (hv : jsFalsy e.value = true) :
    wsChangeHandler t e s
      = (⟨true, true, e.value, some (.error "Value is not set.")⟩, s) := by
  unfold wsChangeHandler
  rw [hc, hp]
  simp only [Bool.not_true, Bool.false_or, Bool.or_false, if_false, ite_false]
  rw [if_pos hv]
  simp

/-- C3 witness: The handler rejecting a `false` value at time 0. -/
theorem C3_handler_rejects_falsy_witness :
    ((WSChangeEvent.cancelable ⟨true, false, .json (.bool false), none⟩ = true)
      ∧ (WSChangeEvent.defaultPrevented ⟨true, false, .json (.bool false), none⟩
          = false)
      ∧ jsFalsy (WSChangeEvent.value ⟨true, false, .json (.bool false), none⟩)
        = true)
    ∧ wsChangeHandler 0 ⟨true, false, .json (.bool false), none⟩ ⟨.jsUndefined, none⟩
      = (⟨true, true, .json (.bool false), some (.error "Value is not set.")⟩,
          ⟨.jsUndefined, none⟩) :=
  ⟨⟨rfl, rfl, rfl⟩,
    C3_handler_rejects_falsy 0 ⟨true, false, .json (.bool false), none⟩
      ⟨.jsUndefined, none⟩ rfl rfl rfl⟩

/-! ## Legacy workspace element ignores `prefix` (C9) -/

/-- C9: The legacy workspace element's storage operations never consult
its declared `prefix` property: `load`, `_store` and `clear` read
`this.dataPrefix`, which the element never defines.  Hence, for every
configured `prefix` value `p`: `load` scans keys beginning with `"."`
(`(undefined || '') + '.'`), `_store` writes each field under the key
`"." + field` (`sKey = "" ++ "." ++ field`), and `clear` matches keys against
the string `"undefined"` (JS `indexOf` coercion of `undefined`) — all
independent of `p`. -/
theorem C9_legacy_ignores_prefix_property (p : String) (σ : LStorage) (ws : JSVal) :
    legacyLoad (mkLegacy p) σ = wsLoadScan "." σ
      ∧ legacyStoreFlush (mkLegacy p) ws σ
        = (if jsFalsy ws then σ
            else (jsFields ws).foldl
              (fun σ kv =>
                match setItem σ ("." ++ kv.1) (toStorageString (wrap kv.2)) with
                | .ok σ' => σ'
                | .error _ => σ) σ)
      ∧ legacyClear (mkLegacy p) σ = clearCore "undefined" σ := by
  refine ⟨rfl, ?_, rfl⟩
  rfl

/-! ## Non-cancelable / already-prevented write events (C10) -/

/-- C10: Both write-request handlers (`settings-changed` on the
Preferences element, `workspace-state-store` on the Workspace element) return
immediately on a non-cancelable or already-default-prevented event: no
`store` call, no result set, no `preventDefault`, no change to the underlying
store, the pending workspace, or the notifications. -/
theorem C10_handlers_ignore_noncancelable (dataPrefix : Option String)
    (t : Nat) (e : WSChangeEvent) (s : WSState) (ep : PrefChangeEvent)
    (σ : LStorage)
    (h1 : e.cancelable = false ∨ e.defaultPrevented = true)
    (h2 : ep.cancelable = false ∨ ep.defaultPrevented = true) :
    wsChangeHandler t e s = (e, s)
      ∧ prefChangeHandler dataPrefix ep σ = (ep, σ, []) := by
  constructor
  · unfold wsChangeHandler
    rcases h1 with h | h <;> simp [h]
  · unfold prefChangeHandler
    rcases h2 with h | h <;> simp [h]

/-- C10 witness: A non-cancelable workspace event and an
already-prevented preferences event. -/
theorem C10_handlers_ignore_noncancelable_witness :
    ((WSChangeEvent.cancelable ⟨false, false, .jsUndefined, none⟩ = false
        ∨ WSChangeEvent.defaultPrevented ⟨false, false, .jsUndefined, none⟩ = true)
      ∧ (PrefChangeEvent.cancelable ⟨true, true, some "k", .jsUndefined, none⟩ = false
        ∨ PrefChangeEvent.defaultPrevented ⟨true, true, some "k", .jsUndefined, none⟩
          = true))
    ∧ wsChangeHandler 0 ⟨false, false, .jsUndefined, none⟩ ⟨.jsUndefined, none⟩
        = (⟨false, false, .jsUndefined, none⟩, ⟨.jsUndefined, none⟩)
      ∧ prefChangeHandler (some "_arc_") ⟨true, true, some "k", .jsUndefined, none⟩
          ⟨[], none⟩
        = (⟨true, true, some "k", .jsUndefined, none⟩, ⟨[], none⟩, []) :=
  ⟨⟨Or.inl rfl, Or.inr rfl⟩,
    C10_handlers_ignore_noncancelable (some "_arc_") 0
      ⟨false, false, .jsUndefined, none⟩ ⟨.jsUndefined, none⟩
      ⟨true, true, some "k", .jsUndefined, none⟩ ⟨[], none⟩ (Or.inl rfl) (Or.inr rfl)⟩

end ArcStore
